import Mathlib

/-!
Verification of the corporate-event reconciliation core of this repository
(`src/analysis/corporate_event/event_utils.py` and the window filter of
`src/analysis/corporate_event/event_ai.py`).

The Python code is shallowly embedded: strings are `String`/`List Char`,
Python dicts become structures, `re.sub`/`strptime`/`fromisoformat` are
modelled as executable Lean functions over character lists.  All definitions
are computable so concrete runs can be settled by `decide`/`rfl`.

Modelling notes (kept close to CPython 3.11 semantics, which the repository
runs under):
* `\s` / `str.strip()` whitespace is modelled as the six ASCII whitespace
  characters; non-ASCII Unicode whitespace is not modelled.
* `str.lower()` is modelled as ASCII lowercasing (`Char.toLower`).
* `int(...)` is modelled without PEP-515 underscore separators.
* `datetime.fromisoformat` is modelled for plain ISO dates
  (`YYYY-MM-DD` and the compact `YYYYMMDD`); ISO week-dates and strings
  carrying a time-of-day suffix are not modelled (no claim exercises them).
-/

namespace EventUtils

/-- ASCII whitespace, the characters matched by `\s` and stripped by
`str.strip()` on ASCII text. -/
def isPySpace (c : Char) : Bool :=
  c = ' ' || c = '\t' || c = '\n' || c = '\r' || c = Char.ofNat 11 || c = Char.ofNat 12

/-- Does the list contain the character `>`? -/
def hasGt : List Char → Bool
  | [] => false
  | c :: rest => (c = '>') || hasGt rest

/-- Drop characters up to and including the first `>`; `none` when there is
no `>`.  This is the tail of the string after a `<[^>]+>` match body. -/
def skipToGt : List Char → Option (List Char)
  | [] => none
  | c :: rest => if c = '>' then some rest else skipToGt rest

/-- Fueled model of `re.sub(r"<[^>]+>", "", text)`: delete every substring
that starts at a `<`, continues with at least one non-`>` character, and
ends at the first following `>`.  A `<` that opens no such match is kept,
exactly as the regex engine keeps it.  The fuel (instantiated with the
string length) only makes the recursion structural. -/
def stripTagsF : Nat → List Char → List Char
  | _, [] => []
  | 0, l => l
  | fuel + 1, c :: rest =>
    if c = '<' then
      match rest with
      | [] => ['<']
      | d :: _ =>
        if d = '>' then '<' :: stripTagsF fuel rest
        else
          match skipToGt rest with
          | some rem => stripTagsF fuel rem
          | none => '<' :: stripTagsF fuel rest
    else c :: stripTagsF fuel rest

/-- Model of `re.sub(r"<[^>]+>", "", text)` from `clean_text`. -/
def stripTags (l : List Char) : List Char := stripTagsF l.length l

/-- Model of `re.sub(r"\s+", " ", text)` from `clean_text`: every maximal
run of whitespace becomes a single space.  The run is collapsed from the
left (each whitespace character whose successor is also whitespace is
dropped, the last one becomes `' '`), which yields the same string as
replacing the whole run at once. -/
def collapseSpaces : List Char → List Char
  | [] => []
  | [c] => if isPySpace c then [' '] else [c]
  | a :: b :: rest =>
    if isPySpace a && isPySpace b then collapseSpaces (b :: rest)
    else (if isPySpace a then ' ' else a) :: collapseSpaces (b :: rest)

/-- Drop leading ASCII whitespace (the left half of `str.strip()`). -/
def dropSpaces : List Char → List Char
  | [] => []
  | c :: rest => if isPySpace c then dropSpaces rest else c :: rest

/-- Drop trailing ASCII whitespace (the right half of `str.strip()`). -/
def stripEnd : List Char → List Char
  | [] => []
  | c :: rest =>
    match stripEnd rest with
    | [] => if isPySpace c then [] else [c]
    | r => c :: r

/-- Model of Python `str.strip()`. -/
def pyStrip (l : List Char) : List Char := stripEnd (dropSpaces l)

/-- The character-level body of `clean_text` once its argument has been
coerced to a string: strip markup, collapse whitespace, strip the ends. -/
def cleanChars (l : List Char) : List Char := pyStrip (collapseSpaces (stripTags l))

mutual

/-- A Python value as far as `clean_text` can observe one: `None`, a string,
an integer, a list, or any other object (carrying its `str()` rendering and
its truthiness). -/
inductive PyVal where
  | none
  | str (s : String)
  | int (n : Int)
  | list (l : PyList)
  | obj (rendering : String) (truthy : Bool)

/-- A Python list of `PyVal`s (mutual with `PyVal` so that recursion over
nested lists stays structural). -/
inductive PyList where
  | nil
  | cons (head : PyVal) (tail : PyList)

end

/-- Build a `PyList` from a Lean list. -/
def PyList.ofList : List PyVal → PyList
  | [] => .nil
  | x :: xs => .cons x (PyList.ofList xs)

/-- Python truthiness of a `PyVal`. -/
def pyTruthy : PyVal → Bool
  | .none => false
  | .str s => !(s = "")
  | .int n => !(n = 0)
  | .list .nil => false
  | .list (.cons _ _) => true
  | .obj _ t => t

mutual

/-- Model of Python `str(v)`.  String quoting inside list renderings follows
CPython's default single-quote `repr` without escape handling. -/
def pyStr : PyVal → String
  | .none => "None"
  | .str s => s
  | .int n => toString n
  | .list l => "[" ++ pyStrList l ++ "]"
  | .obj r _ => r

/-- Comma-separated `repr` rendering of a Python list body. -/
def pyStrList : PyList → String
  | .nil => ""
  | .cons x .nil => pyReprOne x
  | .cons x (.cons y rest) => pyReprOne x ++ ", " ++ pyStrList (.cons y rest)
termination_by structural l => l

/-- Model of Python `repr(v)` as used for elements inside `str(list)`:
like `str(v)` except that strings are quoted. -/
def pyReprOne : PyVal → String
  | .none => "None"
  | .str s => String.mk (Char.ofNat 39 :: s.data ++ [Char.ofNat 39])
  | .int n => toString n
  | .list l => "[" ++ pyStrList l ++ "]"
  | .obj r _ => r
termination_by structural v => v

end

/-- Python `a or b`. -/
def pyOr (a b : PyVal) : PyVal := if pyTruthy a then a else b

/-- The stripped `str()` renderings of the truthy elements of a list, i.e.
the generator `str(i).strip() for i in text if i` from `clean_text`. -/
def joinParts : PyList → List String
  | .nil => []
  | .cons x t =>
    if pyTruthy x then String.mk (pyStrip (pyStr x).data) :: joinParts t else joinParts t

/-- Model of `clean_text` (event_utils.py lines 8-16): a list argument is
joined with single spaces from the stripped `str()` of its truthy elements;
a non-string argument becomes `str(text or "")`; then markup tags are
removed, whitespace runs are collapsed and the ends are stripped. -/
def clean_text (v : PyVal) : String :=
  let t : String :=
    match v with
    | .list l => String.intercalate " " (joinParts l)
    | .str s => s
    | w => if pyTruthy w then pyStr w else ""
  String.mk (cleanChars t.data)

/-! ## Date parsing (normalize_date, event_utils.py lines 22-39)

`datetime.strptime` is modelled per CPython's `_strptime` regexes:
`%Y` is exactly four digits, `%d`/`%m`/`%H`/`%M`/`%S` are one or two digits
in their ranges (two digits preferred, with backtracking), literal
separators match case-insensitively, whitespace in the format matches a
whitespace run, and month names match case-insensitively.  `datetime(...)`
construction then rejects day numbers beyond the month length and year 0. -/

/-- Gregorian leap year. -/
def isLeapYear (y : Nat) : Bool := y % 4 = 0 && (!(y % 100 = 0) || y % 400 = 0)

/-- Days in a month of the proleptic Gregorian calendar. -/
def daysInMonth (y m : Nat) : Nat :=
  if m = 2 then (if isLeapYear y then 29 else 28)
  else if m = 4 || m = 6 || m = 9 || m = 11 then 30
  else 31

/-- A (year, month, day) triple acceptable to `datetime.date`. -/
def validDate (y m d : Nat) : Bool :=
  1 ≤ y && y ≤ 9999 && 1 ≤ m && m ≤ 12 && 1 ≤ d && d ≤ daysInMonth y m

/-- Numeric value of a digit character. -/
def digitVal (c : Char) : Nat := c.toNat - 48

/-- Parse exactly four digits (the `%Y` directive). -/
def pD4 (k : Nat → List Char → Option α) : List Char → Option α
  | a :: b :: c :: d :: rest =>
    if a.isDigit && b.isDigit && c.isDigit && d.isDigit then
      k (1000 * digitVal a + 100 * digitVal b + 10 * digitVal c + digitVal d) rest
    else none
  | _ => none

/-- The two-digit alternative of a numeric `strptime` field. -/
def twoDigitTry (ok2 : Nat → Bool) (k : Nat → List Char → Option α) : List Char → Option α
  | a :: b :: rest =>
    if a.isDigit && b.isDigit && ok2 (10 * digitVal a + digitVal b) then
      k (10 * digitVal a + digitVal b) rest
    else none
  | _ => none

/-- The one-digit alternative of a numeric `strptime` field. -/
def oneDigitTry (ok1 : Nat → Bool) (k : Nat → List Char → Option α) : List Char → Option α
  | a :: rest => if a.isDigit && ok1 (digitVal a) then k (digitVal a) rest else none
  | _ => none

/-- Parse a one-or-two digit field: two digits when their value passes
`ok2`, falling back (as the regex alternation does) to a single digit
passing `ok1` when the rest of the format fails after two. -/
def pNum2or1 (ok2 ok1 : Nat → Bool) (k : Nat → List Char → Option α) (l : List Char) : Option α :=
  (twoDigitTry ok2 k l).orElse fun _ => oneDigitTry ok1 k l

/-- Match one literal character, case-insensitively (the `_strptime`
regex is compiled with `re.IGNORECASE`). -/
def pLit (c : Char) (k : List Char → Option α) : List Char → Option α
  | x :: rest => if x.toLower = c.toLower then k rest else none
  | [] => none

/-- Match a nonempty whitespace run (whitespace in a `strptime` format). -/
def pWs (k : List Char → Option α) : List Char → Option α
  | x :: rest => if isPySpace x then k (dropSpaces rest) else none
  | [] => none

/-- Case-insensitively strip a known-lowercase name from the input. -/
def stripNameCI : List Char → List Char → Option (List Char)
  | [], rest => some rest
  | _ :: _, [] => none
  | p :: ps, c :: cs => if c.toLower = p then stripNameCI ps cs else none

/-- English month names, abbreviated (`%b`) — month number for each. -/
def monthAbbrevs : List (List Char × Nat) :=
  [("jan".data, 1), ("feb".data, 2), ("mar".data, 3), ("apr".data, 4),
   ("may".data, 5), ("jun".data, 6), ("jul".data, 7), ("aug".data, 8),
   ("sep".data, 9), ("oct".data, 10), ("nov".data, 11), ("dec".data, 12)]

/-- English month names, full (`%B`) — month number for each. -/
def monthFulls : List (List Char × Nat) :=
  [("january".data, 1), ("february".data, 2), ("march".data, 3), ("april".data, 4),
   ("may".data, 5), ("june".data, 6), ("july".data, 7), ("august".data, 8),
   ("september".data, 9), ("october".data, 10), ("november".data, 11), ("december".data, 12)]

/-- Match one month name from a table (first, i.e. unique, match wins). -/
def pMonthName (names : List (List Char × Nat)) (k : Nat → List Char → Option α)
    (l : List Char) : Option α :=
  match names with
  | [] => none
  | (nm, m) :: rest =>
    match stripNameCI nm l with
    | some rem => k m rem
    | Option.none => pMonthName rest k l

/-- Final step of a `strptime` call: the whole string must be consumed
(`unconverted data remains` otherwise) and `datetime(year, month, day)`
must accept the triple (so day number and year 0 are checked here; the
month range and day ≤ 31 are already enforced by the field regexes). -/
def checkEnd (y m d : Nat) : List Char → Option (Nat × Nat × Nat)
  | [] => if validDate y m d then some (y, m, d) else none
  | _ :: _ => none

/-- Two-digit values accepted by the `%m` regex. -/
def mOk2 (v : Nat) : Bool := 1 ≤ v && v ≤ 12

/-- Two-digit values accepted by the `%d` regex. -/
def dOk2 (v : Nat) : Bool := 1 ≤ v && v ≤ 31

/-- One-digit values accepted by the `%d`/`%m` regexes. -/
def oneNine (v : Nat) : Bool := 1 ≤ v && v ≤ 9

/-- Two-digit values accepted by the `%H` regex. -/
def hOk2 (v : Nat) : Bool := v ≤ 23

/-- Two-digit values accepted by the `%M`/`%S` regexes. -/
def msOk2 (v : Nat) : Bool := v ≤ 59

/-- One-digit values accepted by `%H`/`%M`/`%S` (`\d`). -/
def digOk (v : Nat) : Bool := v ≤ 9

/-- Shared tail for the two date-time formats: `%H:%M:%S` then end. -/
def pTimeTail (y m d : Nat) : List Char → Option (Nat × Nat × Nat) :=
  pNum2or1 hOk2 digOk fun _ =>
    pLit ':' <| pNum2or1 msOk2 digOk fun _ =>
      pLit ':' <| pNum2or1 msOk2 digOk fun _ => checkEnd y m d

/-- Format `"%Y-%m-%d"`. -/
def fmtYmd : List Char → Option (Nat × Nat × Nat) :=
  pD4 fun y => pLit '-' <| pNum2or1 mOk2 oneNine fun m =>
    pLit '-' <| pNum2or1 dOk2 oneNine fun d => checkEnd y m d

/-- Format `"%d-%m-%Y"`. -/
def fmtDmyDash : List Char → Option (Nat × Nat × Nat) :=
  pNum2or1 dOk2 oneNine fun d => pLit '-' <| pNum2or1 mOk2 oneNine fun m =>
    pLit '-' <| pD4 fun y => checkEnd y m d

/-- Format `"%d/%m/%Y"`. -/
def fmtDmySlash : List Char → Option (Nat × Nat × Nat) :=
  pNum2or1 dOk2 oneNine fun d => pLit '/' <| pNum2or1 mOk2 oneNine fun m =>
    pLit '/' <| pD4 fun y => checkEnd y m d

/-- Format `"%b %d %Y"`. -/
def fmtBdY : List Char → Option (Nat × Nat × Nat) :=
  pMonthName monthAbbrevs fun m => pWs <| pNum2or1 dOk2 oneNine fun d =>
    pWs <| pD4 fun y => checkEnd y m d

/-- Format `"%B %d %Y"`. -/
def fmtBFdY : List Char → Option (Nat × Nat × Nat) :=
  pMonthName monthFulls fun m => pWs <| pNum2or1 dOk2 oneNine fun d =>
    pWs <| pD4 fun y => checkEnd y m d

/-- Format `"%d %b %Y"`. -/
def fmtDbY : List Char → Option (Nat × Nat × Nat) :=
  pNum2or1 dOk2 oneNine fun d => pWs <| pMonthName monthAbbrevs fun m =>
    pWs <| pD4 fun y => checkEnd y m d

/-- Format `"%d %B %Y"`. -/
def fmtDBFY : List Char → Option (Nat × Nat × Nat) :=
  pNum2or1 dOk2 oneNine fun d => pWs <| pMonthName monthFulls fun m =>
    pWs <| pD4 fun y => checkEnd y m d

/-- Format `"%Y-%m-%dT%H:%M:%S"`. -/
def fmtYmdT : List Char → Option (Nat × Nat × Nat) :=
  pD4 fun y => pLit '-' <| pNum2or1 mOk2 oneNine fun m =>
    pLit '-' <| pNum2or1 dOk2 oneNine fun d => pLit 'T' <| pTimeTail y m d

/-- Format `"%Y-%m-%d %H:%M:%S"`. -/
def fmtYmdSp : List Char → Option (Nat × Nat × Nat) :=
  pD4 fun y => pLit '-' <| pNum2or1 mOk2 oneNine fun m =>
    pLit '-' <| pNum2or1 dOk2 oneNine fun d => pWs <| pTimeTail y m d

/-- The `formats` list of `normalize_date`, in source order. -/
def strptimeFormats : List (List Char → Option (Nat × Nat × Nat)) :=
  [fmtYmd, fmtDmyDash, fmtDmySlash, fmtBdY, fmtBFdY, fmtDbY, fmtDBFY, fmtYmdT, fmtYmdSp]

/-- The `for fmt in formats: try ... except ValueError: continue` loop:
the first format that parses wins. -/
def tryFormats : List (List Char → Option (Nat × Nat × Nat)) → List Char →
    Option (Nat × Nat × Nat)
  | [], _ => none
  | f :: fs, l =>
    match f l with
    | some r => some r
    | Option.none => tryFormats fs l

/-- The `datetime(...)` constructor check shared by the ISO parse paths:
the triple must be calendar-valid. -/
def mkDate (y m d : Nat) : Option (Nat × Nat × Nat) :=
  if validDate y m d then some (y, m, d) else none

/-- Model of `datetime.fromisoformat` (CPython 3.11) restricted to plain
ISO dates: `YYYY-MM-DD` or the compact `YYYYMMDD`, with the usual calendar
validation.  ISO week-dates and strings carrying a time of day are not
modelled (they are rejected here; no claim depends on them), and notably a
bare four-digit year such as `"2015"` is rejected, as CPython does. -/
def fromIsoDate (l : List Char) : Option (Nat × Nat × Nat) :=
  match l with
  | [y1, y2, y3, y4, s1, m1, m2, s2, d1, d2] =>
    if y1.isDigit && y2.isDigit && y3.isDigit && y4.isDigit && s1 = '-' &&
        m1.isDigit && m2.isDigit && s2 = '-' && d1.isDigit && d2.isDigit then
      mkDate (1000 * digitVal y1 + 100 * digitVal y2 + 10 * digitVal y3 + digitVal y4)
        (10 * digitVal m1 + digitVal m2) (10 * digitVal d1 + digitVal d2)
    else none
  | [y1, y2, y3, y4, m1, m2, d1, d2] =>
    if y1.isDigit && y2.isDigit && y3.isDigit && y4.isDigit &&
        m1.isDigit && m2.isDigit && d1.isDigit && d2.isDigit then
      mkDate (1000 * digitVal y1 + 100 * digitVal y2 + 10 * digitVal y3 + digitVal y4)
        (10 * digitVal m1 + digitVal m2) (10 * digitVal d1 + digitVal d2)
    else none
  | _ => none

/-- Decimal digits of a natural number (used for unpadded rendering). -/
def natStr (n : Nat) : String := toString n

/-- Zero-pad a number to two digits, as `%m`/`%d` and `date.__str__` do. -/
def pad2 (n : Nat) : String := if n < 10 then "0" ++ natStr n else natStr n

/-- Zero-pad a year to four digits, as `date.__str__` does. -/
def pad4 (n : Nat) : String :=
  if n < 10 then "000" ++ natStr n
  else if n < 100 then "00" ++ natStr n
  else if n < 1000 then "0" ++ natStr n
  else natStr n

/-- Output of `datetime.strftime("%Y-%m-%d")` on glibc: the year is NOT
zero-padded (year 5 renders as `"5"`), month and day are. -/
def strftimeYmd (y m d : Nat) : String := natStr y ++ "-" ++ pad2 m ++ "-" ++ pad2 d

/-- Output of `str(date)`: fully zero-padded ISO rendering. -/
def isoStr (y m d : Nat) : String := pad4 y ++ "-" ++ pad2 m ++ "-" ++ pad2 d

/-- Python `date_str.split("T")[0]`. -/
def beforeT (l : List Char) : List Char := l.takeWhile (fun c => !(c = 'T'))

/-- Model of `normalize_date` (event_utils.py lines 22-39).  The guard
`not date_str or not isinstance(date_str, str)` reduces to an emptiness
test here because the callers pass `clean_text` output, always a string.
The input is stripped, `·` and `,` are removed, the `strptime` formats are
tried in order (rendering the first hit via `strftime("%Y-%m-%d")`), then
`datetime.fromisoformat` is tried on the part before any `"T"` (rendered
via `str(...date())`), and otherwise the result is `"Unknown"`.
`cleanedDateChars` is the stripped, `·`/`,`-free character list. -/
def cleanedDateChars (date_str : String) : List Char :=
  (pyStrip date_str.data).filter fun c => !(c = '·') && !(c = ',')

def normalize_date (date_str : String) : String :=
  if date_str = "" then "Unknown"
  else
    match tryFormats strptimeFormats (cleanedDateChars date_str) with
    | some (y, m, d) => strftimeYmd y m d
    | Option.none =>
      match fromIsoDate (beforeT (cleanedDateChars date_str)) with
      | some (y, m, d) => isoStr y m d
      | Option.none => "Unknown"

/-! ## Canonical events, dedup, merge, sort, confidence -/

/-- The fixed-schema dictionary built by `merge_and_clean_events`.  All
fields are strings there (`confidence` is copied from the raw record or
defaulted to `"C"`; a raw record carrying a non-string `confidence` value
is not modelled). -/
structure CanonicalEvent where
  date : String
  title : String
  description : String
  event_type : String
  counterparty : String
  amount : String
  enterprise_value : String
  advisors : String
  source : String
  url : String
  confidence : String
deriving DecidableEq

/-- A raw record as consumed by `merge_and_clean_events`: one `PyVal` per
recognized key, `PyVal.none` standing for an absent key (for the `or`
chains, an absent key and a stored `None` are indistinguishable).
`confidence` is `Option` because `evt.get("confidence", "C")` does
distinguish an absent key from a present one. -/
structure RawRecord where
  title : PyVal
  description : PyVal
  event_name : PyVal
  date : PyVal
  event_type : PyVal
  type : PyVal
  counterparty : PyVal
  other_party : PyVal
  counter_party : PyVal
  amount : PyVal
  investment : PyVal
  value : PyVal
  enterprise_value : PyVal
  advisors : PyVal
  source : PyVal
  url : PyVal
  link : PyVal
  confidence : Option String

/-- A raw record with every key absent. -/
def RawRecord.empty : RawRecord :=
  ⟨.none, .none, .none, .none, .none, .none, .none, .none, .none, .none,
   .none, .none, .none, .none, .none, .none, .none, Option.none⟩

/-- ASCII `str.lower()`. -/
def lowerStr (s : String) : String := String.mk (s.data.map Char.toLower)

/-- Python `a or b` on strings (a string is falsy exactly when empty). -/
def strOr (a b : String) : String := if a = "" then b else a

/-- The dedup key of `deduplicate_events` (event_utils.py lines 48-52):
`(clean_text(title or description or "").lower(), date, clean_text(source
or "").lower())`.  The function is applied to the already-normalized
dictionaries, where every key is present, so `e.get("date", "Unknown")`
is the `date` field. -/
def dedupKey (e : CanonicalEvent) : String × String × String :=
  (lowerStr (clean_text (.str (strOr e.title (strOr e.description "")))),
   e.date,
   lowerStr (clean_text (.str (strOr e.source ""))))

/-- The loop body of `deduplicate_events`: `seen` is the set of keys met
so far (a list here; only membership is used). -/
def dedupGo (seen : List (String × String × String)) :
    List CanonicalEvent → List CanonicalEvent
  | [] => []
  | e :: rest =>
    if dedupKey e ∈ seen then dedupGo seen rest
    else e :: dedupGo (dedupKey e :: seen) rest

/-- Model of `deduplicate_events` (event_utils.py lines 45-57). -/
def deduplicate_events (events : List CanonicalEvent) : List CanonicalEvent :=
  dedupGo [] events

/-- The `completeness_score` closure of `sort_events` (event_utils.py
lines 95-101).  The membership test `e.get("event_type") not in
["Unknown", "Other", None]` also excludes a Python `None`, which the
all-string canonical schema cannot carry. -/
def completeness_score (e : CanonicalEvent) : Nat :=
  (if !(e.date = "Unknown") && !(e.date = "N/A") then 3 else 0)
  + (if !(e.event_type = "Unknown") && !(e.event_type = "Other") then 2 else 0)
  + (if !(e.counterparty = "Unknown") && !(e.counterparty = "Not available") &&
        !(e.counterparty = "") then 1 else 0)
  + (if !(e.amount = "Not available") && !(e.amount = "Unknown") && !(e.amount = "–")
     then 1 else 0)

/-- The `_sort_date` key (event_utils.py lines 103-107) encoded as a
natural number `y*10000 + m*100 + d`: `datetime.fromisoformat(e["date"])`
when the date is not `Unknown`/`N/A` and parses, and `datetime.min`
(i.e. 0001-01-01, encoding 10101) otherwise.  A date string carrying a
time of day is not modelled (the pipeline only produces plain dates). -/
def sortDateKey (e : CanonicalEvent) : Nat :=
  if e.date = "Unknown" || e.date = "N/A" then 10101
  else
    match fromIsoDate e.date.data with
    | some (y, m, d) => y * 10000 + m * 100 + d
    | Option.none => 10101

/-- Comparison `sortKey a ≤ sortKey b` for the tuple key
`(completeness_score, _sort_date)` under Python's lexicographic tuple
order. -/
def keyLeB (a b : CanonicalEvent) : Bool :=
  completeness_score a < completeness_score b ||
    (completeness_score a = completeness_score b && sortDateKey a ≤ sortDateKey b)

/-- Stable insertion (descending): `x` goes before the first element whose
key is at most `x`'s.  Elements equal to `x` stay after it, which matches
the stability of Python's `sorted(..., reverse=True)` when the insertion
sort consumes the input from the right. -/
def insertByKey (x : CanonicalEvent) : List CanonicalEvent → List CanonicalEvent
  | [] => [x]
  | y :: ys => if keyLeB y x then x :: y :: ys else y :: insertByKey x ys

/-- Model of `sort_events` (event_utils.py lines 94-112):
`sorted(events, key=lambda e: (completeness_score(e), e["_sort_date"]),
reverse=True)` — a stable sort, descending on the tuple key — realized as
a stable insertion sort. -/
def sort_events : List CanonicalEvent → List CanonicalEvent
  | [] => []
  | x :: xs => insertByKey x (sort_events xs)

/-- The `title` local of the loop in `merge_and_clean_events` (line 68):
`clean_text(evt.get("title") or evt.get("description") or
evt.get("event_name") or "")` — the record's cleaned core text. -/
def coreTitle (evt : RawRecord) : String :=
  clean_text (pyOr evt.title (pyOr evt.description (pyOr evt.event_name (.str ""))))

/-- The canonical dictionary appended by the loop of
`merge_and_clean_events` (event_utils.py lines 71-84) for a record that
passes the title guard. -/
def normalizedOf (evt : RawRecord) : CanonicalEvent :=
  ⟨normalize_date (clean_text (pyOr evt.date (.str ""))),
   coreTitle evt,
   clean_text (pyOr evt.description (.str (coreTitle evt))),
   clean_text (pyOr evt.event_type (pyOr evt.type (.str "Other"))),
   clean_text (pyOr evt.counterparty (pyOr evt.other_party (pyOr evt.counter_party (.str "")))),
   clean_text (pyOr evt.amount (pyOr evt.investment (pyOr evt.value (.str "Undisclosed")))),
   clean_text (pyOr evt.enterprise_value (.str "Not available")),
   clean_text (pyOr evt.advisors (.str "N/A")),
   clean_text (pyOr evt.source (.str "Unknown")),
   clean_text (pyOr evt.url (pyOr evt.link (.str ""))),
   (evt.confidence).getD "C"⟩

/-- The per-record body of the loop in `merge_and_clean_events`
(event_utils.py lines 67-85): `none` when the record is skipped by the
`if not title or title in ["Unknown", ""]` guard, otherwise the canonical
dictionary that is appended. -/
def normalizeRecord (evt : RawRecord) : Option CanonicalEvent :=
  if coreTitle evt = "" || coreTitle evt = "Unknown" then Option.none
  else some (normalizedOf evt)

/-- The argument of `merge_and_clean_events`: either a Python list of
records or any non-list value (which the guard turns into `[]`). -/
inductive RawInput where
  | notAList
  | records (l : List RawRecord)

/-- Model of `merge_and_clean_events` (event_utils.py lines 63-88):
guard non-lists and the empty list to `[]`, normalize each record
(dropping empty-titled ones), deduplicate, sort. -/
def merge_and_clean_events : RawInput → List CanonicalEvent
  | .notAList => []
  | .records l => sort_events (deduplicate_events (l.filterMap normalizeRecord))

/-- Is `needle` a substring of `haystack` (Python `x in s`)? -/
def startsWithChars : List Char → List Char → Bool
  | [], _ => true
  | _ :: _, [] => false
  | a :: as, b :: bs => a = b && startsWithChars as bs

/-- Substring test, scanning left to right (Python `x in s`). -/
def isSubstring (needle haystack : List Char) : Bool :=
  startsWithChars needle haystack ||
    match haystack with
    | [] => false
    | _ :: t => isSubstring needle t

/-- The tier-A trust markers of `validate_event_confidence`. -/
def tierAMarkers : List String := ["gemini", "finnhub", "sec", "reuters", "bloomberg"]

/-- The tier-B trust markers of `validate_event_confidence`. -/
def tierBMarkers : List String := ["prnewswire", "businesswire", "cnbc", "forbes"]

/-- Source-string classification of `validate_event_confidence`:
`any(x in source for x in [...])` over the lowercased source. -/
def trustTier (source : String) : String :=
  let s := (lowerStr source).data
  if tierAMarkers.any (fun x => isSubstring x.data s) then "A"
  else if tierBMarkers.any (fun x => isSubstring x.data s) then "B"
  else "C"

/-- Per-event body of `validate_event_confidence` (event_utils.py lines
118-129): an already-valid tier is kept, otherwise the tier is derived
from the source string. -/
def validateConfidence (e : CanonicalEvent) : CanonicalEvent :=
  if e.confidence = "A" || e.confidence = "B" || e.confidence = "C" then e
  else
    ⟨e.date, e.title, e.description, e.event_type, e.counterparty, e.amount,
     e.enterprise_value, e.advisors, e.source, e.url, trustTier e.source⟩

/-- Model of `validate_event_confidence` over a list of events. -/
def validate_event_confidence (events : List CanonicalEvent) : List CanonicalEvent :=
  events.map validateConfidence

/-- The deterministic reconciliation core: normalize + dedup + sort
(`merge_and_clean_events`) followed by confidence assignment
(`validate_event_confidence`). -/
def reconcile (input : RawInput) : List CanonicalEvent :=
  validate_event_confidence (merge_and_clean_events input)

/-! ## Time-window filter (event_ai.py) -/

/-- Model of Python `int(s)` (without PEP-515 underscore separators):
surrounding whitespace, an optional sign, then at least one digit. -/
def pyIntDigits : List Char → Option Nat
  | [] => Option.none
  | [c] => if c.isDigit then some (digitVal c) else Option.none
  | c :: rest =>
    if c.isDigit then
      match pyIntDigits rest with
      | some v => some (digitVal c * 10 ^ rest.length + v)
      | Option.none => Option.none
    else Option.none

/-- Python `int(s)`: strip whitespace, optional `+`/`-`, digits. -/
def pyInt (l : List Char) : Option Int :=
  match pyStrip l with
  | '+' :: rest => (pyIntDigits rest).map fun v => (v : Int)
  | '-' :: rest => (pyIntDigits rest).map fun v => -(v : Int)
  | rest => (pyIntDigits rest).map fun v => (v : Int)

/-- Model of `_is_within_last_5_years` (event_ai.py lines 66-72) with the
clock-dependent lower bound `datetime.now().year - 5` made a parameter:
`int(date_str[:4]) >= lowerBound`, and `True` (keep) when the prefix is
not an integer. -/
def isWithinWindow (lowerBound : Int) (date_str : String) : Bool :=
  match pyInt (date_str.data.take 4) with
  | some y => lowerBound ≤ y
  | Option.none => true

/-- The filtering effect of the refinement loop (event_ai.py lines
159-172): events failing `_is_within_last_5_years` on their date are
skipped, the rest pass through in order. -/
def windowFilter (lowerBound : Int) (events : List CanonicalEvent) : List CanonicalEvent :=
  events.filter fun e => isWithinWindow lowerBound e.date

/-! ## Definitions supporting the individual claims -/

/-- Modelled from the spec's words for claim C2 (the refinement side):
"3 if `date != Unknown`, + 2 if `event_type` is known and not the default
`Other`, + 1 if `counterparty` is known and not `N/A`, + 1 if `amount` is
known and not `Undisclosed`" — "known" read as "not the `Unknown`
sentinel". -/
def specCompleteness (e : CanonicalEvent) : Nat :=
  (if e.date ≠ "Unknown" then 3 else 0)
  + (if e.event_type ≠ "Unknown" ∧ e.event_type ≠ "Other" then 2 else 0)
  + (if e.counterparty ≠ "Unknown" ∧ e.counterparty ≠ "N/A" then 1 else 0)
  + (if e.amount ≠ "Unknown" ∧ e.amount ≠ "Undisclosed" then 1 else 0)

/-- The completeness formula the code actually computes, phrased
independently (membership in the code's exclusion lists) for comparison
with `completeness_score`. -/
def amendedCompleteness (e : CanonicalEvent) : Nat :=
  (if e.date ∈ (["Unknown", "N/A"] : List String) then 0 else 3)
  + (if e.event_type ∈ (["Unknown", "Other"] : List String) then 0 else 2)
  + (if e.counterparty ∈ (["Unknown", "Not available", ""] : List String) then 0 else 1)
  + (if e.amount ∈ (["Not available", "Unknown", "–"] : List String) then 0 else 1)

/-- The full sort key of `sort_events`: the Python tuple
`(completeness_score(e), e["_sort_date"])`. -/
def sortPairKey (e : CanonicalEvent) : Nat × Nat :=
  (completeness_score e, sortDateKey e)

/-- A raw record whose only key is `title: "X"`. -/
def rawTitleX : RawRecord :=
  ⟨.str "X", .none, .none, .none, .none, .none, .none, .none, .none, .none,
   .none, .none, .none, .none, .none, .none, .none, Option.none⟩

/-- A raw record whose only key is `title: "Unknown"`. -/
def rawTitleUnknown : RawRecord :=
  ⟨.str "Unknown", .none, .none, .none, .none, .none, .none, .none, .none, .none,
   .none, .none, .none, .none, .none, .none, .none, Option.none⟩

/-- A canonical event holding only sentinel defaults: date `Unknown`,
type `Other`, counterparty `N/A`, amount `Undisclosed`. -/
def eventAllDefaults : CanonicalEvent :=
  ⟨"Unknown", "T", "T", "Other", "N/A", "Undisclosed", "Not available", "N/A", "S", "", "C"⟩

/-- A canonical event with date `Unknown` (for the date-key witness). -/
def eventUnknownDate : CanonicalEvent :=
  ⟨"Unknown", "U", "U", "Other", "", "Undisclosed", "Not available", "N/A", "S", "", "C"⟩

/-- A canonical event dated 2024-03-01 (for the date-key witness). -/
def eventDated : CanonicalEvent :=
  ⟨"2024-03-01", "D", "D", "Other", "", "Undisclosed", "Not available", "N/A", "S", "", "C"⟩

/-- A canonical event from source `Reuters` carrying the invalid
confidence marker `"X"`. -/
def eventReutersX : CanonicalEvent :=
  ⟨"2024-03-01", "T", "T", "Other", "", "Undisclosed", "Not available", "N/A", "Reuters", "", "X"⟩

/-- A canonical event dated 2015 (for the window-filter witness). -/
def event2015 : CanonicalEvent :=
  ⟨"2015-03-01", "O", "O", "Other", "", "Undisclosed", "Not available", "N/A", "S", "", "C"⟩

/-! ## Observers for the `clean_text` safety claim -/

/-- Does the list start with at least one non-`>` character and contain a
later `>` — i.e. could `<` directly before it open a `<[^>]+>` tag? -/
def tagBody : List Char → Bool
  | [] => false
  | d :: r => if d = '>' then false else hasGt r

/-- Does the list contain a substring matching `<[^>]+>`? -/
def containsTag : List Char → Bool
  | [] => false
  | c :: rest => (if c = '<' then tagBody rest else false) || containsTag rest

/-- No two adjacent characters are both whitespace. -/
def noWsPair : List Char → Bool
  | [] => true
  | [_] => true
  | a :: b :: rest => !(isPySpace a && isPySpace b) && noWsPair (b :: rest)

/-- The first character, if any, is not whitespace. -/
def headNotSpace : List Char → Bool
  | [] => true
  | c :: _ => !isPySpace c

/-- The last character, if any, is not whitespace. -/
def lastNotSpace : List Char → Bool
  | [] => true
  | [c] => !isPySpace c
  | _ :: b :: rest => lastNotSpace (b :: rest)

/-! ## Lemmas about the `clean_text` character pipeline -/

theorem skipToGt_length : ∀ {l r : List Char}, skipToGt l = some r → r.length < l.length := by
  intro l
  induction l with
  | nil => intro r h; simp [skipToGt] at h
  | cons c rest ih =>
    intro r h
    simp only [skipToGt] at h
    by_cases hc : c = '>'
    · simp [hc] at h
      subst h
      exact Nat.lt_succ_self _
    · simp [hc] at h
      have := ih h
      simp only [List.length_cons]
      omega

theorem hasGt_eq_false_of_skipToGt_none :
    ∀ {l : List Char}, skipToGt l = none → hasGt l = false := by
  intro l
  induction l with
  | nil => intro _; rfl
  | cons c rest ih =>
    intro h
    simp only [skipToGt] at h
    by_cases hc : c = '>'
    · simp [hc] at h
    · simp [hc] at h
      simp [hasGt, hc, ih h]

theorem hasGt_append (p q : List Char) : hasGt (p ++ q) = (hasGt p || hasGt q) := by
  induction p with
  | nil => simp [hasGt]
  | cons c rest ih => simp [hasGt, ih, Bool.or_assoc]

theorem mem_skipToGt : ∀ {l r : List Char}, skipToGt l = some r → ∀ {x}, x ∈ r → x ∈ l := by
  intro l
  induction l with
  | nil => intro r h; simp [skipToGt] at h
  | cons c rest ih =>
    intro r h x hx
    simp only [skipToGt] at h
    by_cases hc : c = '>'
    · simp [hc] at h; subst h; exact List.mem_cons_of_mem _ hx
    · simp [hc] at h
      exact List.mem_cons_of_mem _ (ih h hx)

theorem mem_stripTagsF :
    ∀ (fuel : Nat) (l : List Char) {x : Char}, x ∈ stripTagsF fuel l → x ∈ l := by
  intro fuel
  induction fuel with
  | zero =>
    intro l x h
    cases l with
    | nil => simpa [stripTagsF] using h
    | cons c rest => simpa [stripTagsF] using h
  | succ f ih =>
    intro l x h
    cases l with
    | nil => simpa [stripTagsF] using h
    | cons c rest =>
      by_cases hc : c = '<'
      · cases rest with
        | nil => simpa [stripTagsF, hc] using h
        | cons d rest2 =>
          by_cases hd : d = '>'
          · subst hd
            simp only [stripTagsF, hc, if_pos rfl] at h
            rcases List.mem_cons.mp h with h1 | h1
            · simp [hc, h1]
            · exact List.mem_cons_of_mem _ (ih _ h1)
          · simp only [stripTagsF, hc, if_pos rfl, hd, if_neg] at h
            rcases hg : skipToGt (d :: rest2) with _ | rem
            · rw [hg] at h
              simp only [] at h
              rcases List.mem_cons.mp h with h1 | h1
              · simp [hc, h1]
              · exact List.mem_cons_of_mem _ (ih _ h1)
            · rw [hg] at h
              exact List.mem_cons_of_mem _ (mem_skipToGt hg (ih _ h))
      · simp only [stripTagsF, hc, if_neg] at h
        rcases List.mem_cons.mp h with h1 | h1
        · simp [h1]
        · exact List.mem_cons_of_mem _ (ih _ h1)

theorem hasGt_eq_false_iff (l : List Char) : hasGt l = false ↔ '>' ∉ l := by
  induction l with
  | nil => simp [hasGt]
  | cons c rest ih =>
    simp only [hasGt, Bool.or_eq_false_iff, List.mem_cons, ih]
    constructor
    · rintro ⟨h1, h2⟩ (h | h)
      · simp [h.symm] at h1
      · exact h2 h
    · intro h
      refine ⟨?_, fun hm => h (Or.inr hm)⟩
      by_cases hc : c = '>'
      · exact absurd (Or.inl hc.symm) h
      · simp [hc]

theorem containsTag_eq_false_of_no_gt {l : List Char} (h : hasGt l = false) :
    containsTag l = false := by
  induction l with
  | nil => rfl
  | cons c rest ih =>
    simp only [hasGt, Bool.or_eq_false_iff] at h
    simp only [containsTag, Bool.or_eq_false_iff]
    refine ⟨?_, ih h.2⟩
    by_cases hc : c = '<'
    · simp only [hc, if_pos rfl]
      cases rest with
      | nil => rfl
      | cons d r =>
        simp only [tagBody]
        by_cases hd : d = '>'
        · exact absurd h.2 (by simp [hasGt, hd])
        · simp only [hasGt, Bool.or_eq_false_iff] at h
          simp [hd, h.2.2]
    · simp [hc]

theorem containsTag_stripTagsF :
    ∀ (fuel : Nat) (l : List Char), l.length ≤ fuel → containsTag (stripTagsF fuel l) = false := by
  intro fuel
  induction fuel with
  | zero =>
    intro l hl
    have : l = [] := List.eq_nil_of_length_eq_zero (Nat.le_zero.mp hl)
    subst this
    rfl
  | succ f ih =>
    intro l hl
    cases l with
    | nil => rfl
    | cons c rest =>
      simp only [List.length_cons, Nat.succ_le_succ_iff] at hl
      by_cases hc : c = '<'
      · cases rest with
        | nil => simp [stripTagsF, hc, containsTag, tagBody]
        | cons d rest2 =>
          by_cases hd : d = '>'
          · simp only [stripTagsF, hc, if_pos rfl, hd, if_pos rfl]
            have hf : 0 < f := by simp at hl; omega
            obtain ⟨f', rfl⟩ : ∃ f', f = f' + 1 := ⟨f - 1, by omega⟩
            subst hd
            simp only [containsTag, stripTagsF, Bool.or_eq_false_iff]
            constructor
            · simp [tagBody]
            · have := ih ('>' :: rest2) hl
              simpa [stripTagsF] using this
          · simp only [stripTagsF, hc, if_pos rfl, hd, if_neg]
            rcases hg : skipToGt (d :: rest2) with _ | rem
            · have hng : hasGt (d :: rest2) = false := hasGt_eq_false_of_skipToGt_none hg
              have hx : hasGt (stripTagsF f (d :: rest2)) = false := by
                rw [hasGt_eq_false_iff] at hng ⊢
                intro hm
                exact hng (mem_stripTagsF f _ hm)
              simp only [containsTag, hc, if_pos rfl, Bool.or_eq_false_iff]
              refine ⟨?_, containsTag_eq_false_of_no_gt hx⟩
              rcases hsx : stripTagsF f (d :: rest2) with _ | ⟨e, r⟩
              · rfl
              · rw [hsx] at hx
                simp only [tagBody]
                simp only [hasGt, Bool.or_eq_false_iff] at hx
                by_cases he : e = '>'
                · simp [he] at hx
                · simp [he, hx.2]
            · exact ih rem (by have := skipToGt_length hg; omega)
      · simp only [stripTagsF, hc, if_neg, containsTag, Bool.or_eq_false_iff]
        exact ⟨by simp [hc], ih rest hl⟩

theorem collapse_cons_nonspace {b : Char} (r : List Char) (hb : isPySpace b = false) :
    collapseSpaces (b :: r) = b :: collapseSpaces r := by
  cases r with
  | nil => simp [collapseSpaces, hb]
  | cons c r2 => simp [collapseSpaces, hb]

theorem collapse_cons_space :
    ∀ (r : List Char) {b : Char}, isPySpace b = true →
      ∃ t, collapseSpaces (b :: r) = ' ' :: t := by
  intro r
  induction r with
  | nil => intro b hb; exact ⟨[], by simp [collapseSpaces, hb]⟩
  | cons c r2 ih =>
    intro b hb
    by_cases hcsp : isPySpace c
    · obtain ⟨t, ht⟩ := ih hcsp
      exact ⟨t, by simp [collapseSpaces, hb, hcsp, ht]⟩
    · exact ⟨collapseSpaces (c :: r2), by simp [collapseSpaces, hb, hcsp]⟩

theorem hasGt_collapse : ∀ (l : List Char), hasGt (collapseSpaces l) = hasGt l := by
  intro l
  induction l with
  | nil => rfl
  | cons a tl ih =>
    cases tl with
    | nil =>
      by_cases ha : isPySpace a
      · have hne : ¬(a = '>') := fun h => by subst h; simp [isPySpace] at ha
        simp [collapseSpaces, ha, hasGt, hne]
      · simp [collapseSpaces, ha]
    | cons b r =>
      by_cases ha : isPySpace a
      · have hne : ¬(a = '>') := fun h => by subst h; simp [isPySpace] at ha
        by_cases hb : isPySpace b
        · have hcc : collapseSpaces (a :: b :: r) = collapseSpaces (b :: r) := by
            simp [collapseSpaces, ha, hb]
          rw [hcc, ih]
          simp [hasGt, hne]
        · have hcc : collapseSpaces (a :: b :: r) = ' ' :: collapseSpaces (b :: r) := by
            simp [collapseSpaces, ha, hb]
          rw [hcc]
          simp [hasGt, ih, hne]
      · have hcc : collapseSpaces (a :: b :: r) = a :: collapseSpaces (b :: r) := by
          simp [collapseSpaces, ha]
        rw [hcc]
        simp [hasGt, ih]

theorem containsTag_tail {c : Char} {l : List Char} (h : containsTag (c :: l) = false) :
    containsTag l = false := by
  simp only [containsTag, Bool.or_eq_false_iff] at h
  exact h.2

theorem containsTag_collapse :
    ∀ (l : List Char), containsTag l = false → containsTag (collapseSpaces l) = false := by
  intro l
  induction l with
  | nil => intro _; rfl
  | cons a tl ih =>
    intro h
    have htl : containsTag tl = false := containsTag_tail h
    cases tl with
    | nil =>
      by_cases ha : isPySpace a <;>
        simp [collapseSpaces, ha, containsTag, tagBody]
    | cons b r =>
      by_cases ha : isPySpace a
      · by_cases hb : isPySpace b
        · have hcc : collapseSpaces (a :: b :: r) = collapseSpaces (b :: r) := by
            simp [collapseSpaces, ha, hb]
          rw [hcc]
          exact ih htl
        · have hcc : collapseSpaces (a :: b :: r) = ' ' :: collapseSpaces (b :: r) := by
            simp [collapseSpaces, ha, hb]
          rw [hcc]
          simp only [containsTag, Bool.or_eq_false_iff]
          exact ⟨by simp, ih htl⟩
      · have hcc : collapseSpaces (a :: b :: r) = a :: collapseSpaces (b :: r) := by
          simp [collapseSpaces, ha]
        rw [hcc]
        simp only [containsTag, Bool.or_eq_false_iff]
        refine ⟨?_, ih htl⟩
        by_cases hlt : a = '<'
        · simp only [hlt, if_pos rfl]
          have htb : tagBody (b :: r) = false := by
            simp only [containsTag, Bool.or_eq_false_iff] at h
            have h5 := h.1
            rw [hlt] at h5
            simpa using h5
          by_cases hbg : b = '>'
          · subst hbg
            rw [collapse_cons_nonspace r (by simp [isPySpace])]
            simp [tagBody]
          · have htb2 : hasGt r = false := by simpa [tagBody, hbg] using htb
            by_cases hbs : isPySpace b
            · obtain ⟨t, ht⟩ := collapse_cons_space r hbs
              rw [ht]
              have h1 : hasGt (' ' :: t) = hasGt (b :: r) := by rw [← ht, hasGt_collapse]
              have h2 : hasGt (b :: r) = false := by simp [hasGt, hbg, htb2]
              have h3 : hasGt t = false := by simpa [hasGt] using h1.trans h2
              simp [tagBody, h3]
            · rw [collapse_cons_nonspace r (by simpa using hbs)]
              simp [tagBody, hbg, hasGt_collapse, htb2]
        · simp [hlt]

theorem containsTag_dropSpaces {l : List Char} (h : containsTag l = false) :
    containsTag (dropSpaces l) = false := by
  induction l with
  | nil => exact h
  | cons c rest ih =>
    by_cases hc : isPySpace c
    · simp only [dropSpaces, hc, if_pos rfl]
      exact ih (containsTag_tail h)
    · simpa [dropSpaces, hc] using h

theorem stripEnd_eats : ∀ (l : List Char), ∃ q, stripEnd l ++ q = l := by
  intro l
  induction l with
  | nil => exact ⟨[], rfl⟩
  | cons c rest ih =>
    obtain ⟨q, hq⟩ := ih
    rcases hs : stripEnd rest with _ | ⟨x, xs⟩
    · by_cases hc : isPySpace c
      · exact ⟨c :: rest, by simp [stripEnd, hs, hc]⟩
      · refine ⟨rest, ?_⟩
        rw [hs] at hq
        simp only [List.nil_append] at hq
        simp [stripEnd, hs, hc]
    · refine ⟨q, ?_⟩
      have hstep : stripEnd (c :: rest) = c :: (x :: xs) := by simp [stripEnd, hs]
      rw [hstep, List.cons_append]
      rw [hs] at hq
      rw [hq]

theorem containsTag_append_false {p q : List Char} (h : containsTag (p ++ q) = false) :
    containsTag p = false := by
  induction p with
  | nil => rfl
  | cons c p2 ih =>
    rw [List.cons_append] at h
    simp only [containsTag, Bool.or_eq_false_iff] at h ⊢
    refine ⟨?_, ih h.2⟩
    have h1 := h.1
    by_cases hc : c = '<'
    · simp only [hc, if_pos rfl] at h1 ⊢
      cases p2 with
      | nil => rfl
      | cons d r =>
        rw [List.cons_append] at h1
        simp only [tagBody] at h1 ⊢
        by_cases hd : d = '>'
        · simp [hd]
        · rw [if_neg hd] at h1 ⊢
          rw [hasGt_append] at h1
          exact (Bool.or_eq_false_iff.mp h1).1
    · simp [hc]

theorem containsTag_stripEnd {l : List Char} (h : containsTag l = false) :
    containsTag (stripEnd l) = false := by
  obtain ⟨q, hq⟩ := stripEnd_eats l
  rw [← hq] at h
  exact containsTag_append_false h

theorem containsTag_cleanChars (l : List Char) : containsTag (cleanChars l) = false := by
  unfold cleanChars pyStrip stripTags
  exact containsTag_stripEnd (containsTag_dropSpaces
    (containsTag_collapse _ (containsTag_stripTagsF l.length l (Nat.le_refl _))))

theorem noWsPair_tail {c : Char} {l : List Char} (h : noWsPair (c :: l) = true) :
    noWsPair l = true := by
  cases l with
  | nil => rfl
  | cons b r =>
    simp only [noWsPair, Bool.and_eq_true] at h
    exact h.2

theorem noWsPair_collapse : ∀ (l : List Char), noWsPair (collapseSpaces l) = true := by
  intro l
  induction l with
  | nil => rfl
  | cons a tl ih =>
    cases tl with
    | nil => by_cases ha : isPySpace a <;> simp [collapseSpaces, ha, noWsPair]
    | cons b r =>
      by_cases ha : isPySpace a
      · by_cases hb : isPySpace b
        · have hcc : collapseSpaces (a :: b :: r) = collapseSpaces (b :: r) := by
            simp [collapseSpaces, ha, hb]
          rw [hcc]; exact ih
        · have hcc : collapseSpaces (a :: b :: r) = ' ' :: collapseSpaces (b :: r) := by
            simp [collapseSpaces, ha, hb]
          rw [hcc]
          have hbc : collapseSpaces (b :: r) = b :: collapseSpaces r :=
            collapse_cons_nonspace r (by simpa using hb)
          rw [hbc] at ih ⊢
          simp only [noWsPair, Bool.and_eq_true]
          refine ⟨?_, ih⟩
          simp [hb]
      · have hcc : collapseSpaces (a :: b :: r) = a :: collapseSpaces (b :: r) := by
          simp [collapseSpaces, ha]
        rw [hcc]
        rcases hx : collapseSpaces (b :: r) with _ | ⟨x, xs⟩
        · simp [noWsPair]
        · rw [hx] at ih
          simp only [noWsPair, Bool.and_eq_true]
          exact ⟨by simp [ha], ih⟩

theorem noWsPair_dropSpaces {l : List Char} (h : noWsPair l = true) :
    noWsPair (dropSpaces l) = true := by
  induction l with
  | nil => exact h
  | cons c rest ih =>
    by_cases hc : isPySpace c
    · simp only [dropSpaces, hc, if_pos rfl]
      exact ih (noWsPair_tail h)
    · simpa [dropSpaces, hc] using h

theorem noWsPair_append_false : ∀ (p q : List Char), noWsPair (p ++ q) = true →
    noWsPair p = true := by
  intro p
  induction p with
  | nil => intro q _; rfl
  | cons a p2 ih =>
    intro q h
    cases p2 with
    | nil => rfl
    | cons b p3 =>
      simp only [List.cons_append, noWsPair, Bool.and_eq_true] at h
      have h2 := ih q (by simpa using h.2)
      simp only [noWsPair, Bool.and_eq_true]
      exact ⟨h.1, h2⟩

theorem noWsPair_stripEnd {l : List Char} (h : noWsPair l = true) :
    noWsPair (stripEnd l) = true := by
  obtain ⟨q, hq⟩ := stripEnd_eats l
  rw [← hq] at h
  exact noWsPair_append_false _ _ h

theorem noWsPair_cleanChars (l : List Char) : noWsPair (cleanChars l) = true := by
  unfold cleanChars pyStrip
  exact noWsPair_stripEnd (noWsPair_dropSpaces (noWsPair_collapse _))

theorem headNotSpace_dropSpaces (l : List Char) : headNotSpace (dropSpaces l) = true := by
  induction l with
  | nil => rfl
  | cons c rest ih =>
    by_cases hc : isPySpace c
    · simpa [dropSpaces, hc] using ih
    · simp [dropSpaces, hc, headNotSpace]

theorem headNotSpace_stripEnd {l : List Char} (h : headNotSpace l = true) :
    headNotSpace (stripEnd l) = true := by
  cases l with
  | nil => rfl
  | cons c rest =>
    rcases hs : stripEnd rest with _ | ⟨x, xs⟩
    · by_cases hc : isPySpace c
      · simp [stripEnd, hs, hc, headNotSpace]
      · simp [stripEnd, hs, hc, headNotSpace]
    · simp only [stripEnd, hs]
      simpa [headNotSpace] using h

theorem lastNotSpace_cons {c : Char} {l : List Char} (hl : l ≠ []) :
    lastNotSpace (c :: l) = lastNotSpace l := by
  cases l with
  | nil => exact absurd rfl hl
  | cons b r => rfl

theorem lastNotSpace_stripEnd : ∀ (l : List Char), lastNotSpace (stripEnd l) = true := by
  intro l
  induction l with
  | nil => rfl
  | cons c rest ih =>
    rcases hs : stripEnd rest with _ | ⟨x, xs⟩
    · by_cases hc : isPySpace c
      · simp [stripEnd, hs, hc, lastNotSpace]
      · simp [stripEnd, hs, hc, lastNotSpace]
    · simp only [stripEnd, hs]
      rw [hs] at ih
      rw [lastNotSpace_cons (by simp)]
      exact ih

theorem headNotSpace_cleanChars (l : List Char) : headNotSpace (cleanChars l) = true := by
  unfold cleanChars pyStrip
  exact headNotSpace_stripEnd (headNotSpace_dropSpaces _)

theorem lastNotSpace_cleanChars (l : List Char) : lastNotSpace (cleanChars l) = true := by
  unfold cleanChars pyStrip
  exact lastNotSpace_stripEnd _

/-! ## Claim theorems -/

/-- C10: for every input value — a string, a list of arbitrary values,
`None`, or any other value — `clean_text` returns a string (it is a total
Lean function into `String`, so it can neither raise nor return null)
that contains no `<[^>]+>` markup tag, no two consecutive whitespace
characters, and no leading or trailing whitespace. -/
theorem claim_C10_clean_text_safe (v : PyVal) :
    containsTag (clean_text v).data = false ∧
    noWsPair (clean_text v).data = true ∧
    headNotSpace (clean_text v).data = true ∧
    lastNotSpace (clean_text v).data = true :=
  ⟨containsTag_cleanChars _, noWsPair_cleanChars _,
   headNotSpace_cleanChars _, lastNotSpace_cleanChars _⟩

/-- C9: when the raw-record input is empty or not a list, the
reconciliation core (merge / dedup / sort, then confidence assignment)
returns the empty canonical-event list; being total Lean functions, the
embedded stages cannot raise. -/
theorem claim_C9_empty_input :
    merge_and_clean_events (.records []) = [] ∧
    merge_and_clean_events .notAList = [] ∧
    reconcile (.records []) = [] ∧
    reconcile .notAList = [] :=
  ⟨rfl, rfl, rfl, rfl⟩

/-- C8: the reconciliation pipeline is deterministic — running the
normalize–deduplicate–score–sort stages twice on the same raw input
yields identical canonical-event lists (including order).  In this
embedding the stages are pure functions of the input (no clock or
randomness), so two runs on equal inputs agree definitionally. -/
theorem claim_C8_deterministic (input1 input2 : RawInput) (h : input1 = input2) :
    reconcile input1 = reconcile input2 := by rw [h]

theorem claim_C8_witness : reconcile (.records [rawTitleX]) = reconcile (.records [rawTitleX]) :=
  claim_C8_deterministic _ _ rfl

/-- C2 counterexample: on the event whose counterparty is `N/A` and whose
amount is `Undisclosed` (everything else default), the code's
`completeness_score` yields 2 — `N/A` and `Undisclosed` are not in the
code's exclusion lists, so both fields score — while the claim's formula
yields 0. -/
theorem claim_C2_counterexample :
    completeness_score eventAllDefaults = 2 ∧ specCompleteness eventAllDefaults = 0 := by
  constructor
  · decide
  · decide

/-- C2 amended: the completeness score equals 3 if the date is outside
`{Unknown, N/A}`, plus 2 if the event type is outside `{Unknown, Other}`,
plus 1 if the counterparty is outside `{Unknown, Not available, ""}`,
plus 1 if the amount is outside `{Not available, Unknown, –}` — so an
event with counterparty `N/A` or amount `Undisclosed` DOES gain those
points. -/
theorem claim_C2_amended (e : CanonicalEvent) :
    completeness_score e = amendedCompleteness e := by
  unfold completeness_score amendedCompleteness
  have t1 : (if !(e.date = "Unknown") && !(e.date = "N/A") then 3 else 0)
      = (if e.date ∈ (["Unknown", "N/A"] : List String) then 0 else 3) := by
    by_cases hu : e.date = "Unknown"
    · simp [hu]
    · by_cases hn : e.date = "N/A" <;> simp [hu, hn]
  have t2 : (if !(e.event_type = "Unknown") && !(e.event_type = "Other") then 2 else 0)
      = (if e.event_type ∈ (["Unknown", "Other"] : List String) then 0 else 2) := by
    by_cases hu : e.event_type = "Unknown"
    · simp [hu]
    · by_cases hn : e.event_type = "Other" <;> simp [hu, hn]
  have t3 : (if !(e.counterparty = "Unknown") && !(e.counterparty = "Not available") &&
        !(e.counterparty = "") then 1 else 0)
      = (if e.counterparty ∈ (["Unknown", "Not available", ""] : List String) then 0 else 1) := by
    by_cases hu : e.counterparty = "Unknown"
    · simp [hu]
    · by_cases hn : e.counterparty = "Not available"
      · simp [hu, hn]
      · by_cases he : e.counterparty = "" <;> simp [hu, hn, he]
  have t4 : (if !(e.amount = "Not available") && !(e.amount = "Unknown") && !(e.amount = "–")
        then 1 else 0)
      = (if e.amount ∈ (["Not available", "Unknown", "–"] : List String) then 0 else 1) := by
    by_cases hu : e.amount = "Not available"
    · simp [hu]
    · by_cases hn : e.amount = "Unknown"
      · simp [hu, hn]
      · by_cases he : e.amount = "–" <;> simp [hu, hn, he]
  rw [t1, t2, t3, t4]

/-- Helper for C7: `trustTier` always lands in the three tiers. -/
theorem trustTier_mem (s : String) :
    trustTier s = "A" ∨ trustTier s = "B" ∨ trustTier s = "C" := by
  unfold trustTier
  dsimp only
  split_ifs <;> simp

/-- C7: an event already carrying a valid tier (`A`, `B`, or `C`) is left
unchanged; otherwise its tier is recomputed from the trust markers in its
source string (primary feeds / filings / wire services — `gemini`,
`finnhub`, `sec`, `reuters`, `bloomberg` — give `A`; press-release
distributors and business outlets — `prnewswire`, `businesswire`, `cnbc`,
`forbes` — give `B`; anything else `C`), and every event leaves the stage
with exactly one of the three tiers; in particular source `Reuters` maps
to `A`. -/
theorem claim_C7_confidence (e : CanonicalEvent) :
    ((e.confidence = "A" ∨ e.confidence = "B" ∨ e.confidence = "C") →
      validateConfidence e = e) ∧
    (¬(e.confidence = "A" ∨ e.confidence = "B" ∨ e.confidence = "C") →
      (validateConfidence e).confidence = trustTier e.source) ∧
    ((validateConfidence e).confidence = "A" ∨ (validateConfidence e).confidence = "B" ∨
      (validateConfidence e).confidence = "C") ∧
    trustTier "Reuters" = "A" := by
  by_cases hv : (e.confidence = "A" || e.confidence = "B" || e.confidence = "C") = true
  · have hv2 : e.confidence = "A" ∨ e.confidence = "B" ∨ e.confidence = "C" := by
      simpa [Bool.or_eq_true, or_assoc] using hv
    refine ⟨fun _ => by simp [validateConfidence, hv], fun hn => absurd hv2 hn, ?_, by decide⟩
    simp only [validateConfidence, hv, if_pos rfl]
    exact hv2
  · have hv2 : ¬(e.confidence = "A" ∨ e.confidence = "B" ∨ e.confidence = "C") := by
      intro hcon
      apply hv
      simpa [Bool.or_eq_true, or_assoc] using hcon
    refine ⟨fun hcon => absurd hcon hv2, fun _ => ?_, ?_, by decide⟩
    · simp [validateConfidence, hv]
    · simp only [validateConfidence, hv, if_neg]
      exact trustTier_mem e.source

theorem claim_C7_witness : (validateConfidence eventReutersX).confidence = "A" := by
  have h := (claim_C7_confidence eventReutersX).2.1 (by decide)
  rw [h]
  decide

/-- C6: for a lower-bound year `Y`, the window filter keeps exactly the
events whose date passes `_is_within_last_5_years`: an event whose first
four date characters parse as an integer `< Y` is dropped, one that
parses `≥ Y` survives, and one whose date yields no parsable integer
(e.g. `Unknown`) is retained regardless of `Y`; the survivors keep their
input order. -/
theorem claim_C6_window (lb : Int) (events : List CanonicalEvent) :
    List.Sublist (windowFilter lb events) events ∧
    (∀ e : CanonicalEvent, e ∈ windowFilter lb events ↔
      e ∈ events ∧ isWithinWindow lb e.date = true) ∧
    (∀ d : String, pyInt (d.data.take 4) = Option.none → isWithinWindow lb d = true) ∧
    (∀ d : String, ∀ y : Int, pyInt (d.data.take 4) = some y →
      (isWithinWindow lb d = true ↔ lb ≤ y)) ∧
    isWithinWindow lb "Unknown" = true := by
  refine ⟨List.filter_sublist _, ?_, ?_, ?_, rfl⟩
  · intro e
    simp [windowFilter, List.mem_filter]
  · intro d hnone
    simp [isWithinWindow, hnone]
  · intro d y hsome
    simp [isWithinWindow, hsome]

theorem claim_C6_witness :
    isWithinWindow 2020 "Unknown" = true ∧
    (isWithinWindow 2020 "2015-03-01" = true ↔ (2020 : Int) ≤ 2015) ∧
    event2015 ∉ windowFilter 2020 [event2015, eventUnknownDate] ∧
    eventUnknownDate ∈ windowFilter 2020 [event2015, eventUnknownDate] := by
  refine ⟨(claim_C6_window 2020 []).2.2.2.2, (claim_C6_window 2020 []).2.2.2.1 "2015-03-01" 2015 rfl, ?_, ?_⟩
  · intro hmem
    have h := ((claim_C6_window 2020 [event2015, eventUnknownDate]).2.1 event2015).mp hmem
    have h2 := h.2
    rw [show isWithinWindow 2020 event2015.date = false from by decide] at h2
    cases h2
  · exact ((claim_C6_window 2020 [event2015, eventUnknownDate]).2.1 eventUnknownDate).mpr
      ⟨by simp, by decide⟩

/-- C1 counterexample: on the record `{"title": "X"}` the normalized
event's counterparty is the empty string, not the claimed sentinel
`N/A` (so a field CAN be the empty string); and the record
`{"title": "Unknown"}`, whose core text cleans to the non-empty string
`"Unknown"`, is dropped rather than normalized. -/
theorem claim_C1_counterexample :
    (merge_and_clean_events (.records [rawTitleX])).map CanonicalEvent.counterparty = [""] ∧
    ¬(merge_and_clean_events (.records [rawTitleX])).map CanonicalEvent.counterparty = ["N/A"] ∧
    merge_and_clean_events (.records [rawTitleUnknown]) = [] := by
  refine ⟨by decide, by decide, by decide⟩

/-- C1 amended: a record whose core text cleans to `""` or to the string
`"Unknown"` is dropped; any other record yields exactly one canonical
event, and when its date/type/counterparty/amount sources are all absent
or falsy the event carries `date = "Unknown"`, `event_type = "Other"`,
`amount = "Undisclosed"` — but `counterparty = ""` (the empty string,
not `N/A`). -/
theorem claim_C1_amended (r rDrop : RawRecord)
    (hDrop : coreTitle rDrop = "" ∨ coreTitle rDrop = "Unknown")
    (h1 : ¬coreTitle r = "") (h2 : ¬coreTitle r = "Unknown")
    (hdate : pyTruthy r.date = false)
    (het : pyTruthy r.event_type = false) (hty : pyTruthy r.type = false)
    (hcp : pyTruthy r.counterparty = false) (hop : pyTruthy r.other_party = false)
    (hcp2 : pyTruthy r.counter_party = false)
    (ham : pyTruthy r.amount = false) (hin : pyTruthy r.investment = false)
    (hv : pyTruthy r.value = false) :
    merge_and_clean_events (.records [rDrop]) = [] ∧
    ∃ e : CanonicalEvent, merge_and_clean_events (.records [r]) = [e] ∧
      e.title = coreTitle r ∧ e.date = "Unknown" ∧ e.event_type = "Other" ∧
      e.counterparty = "" ∧ e.amount = "Undisclosed" := by
  constructor
  · have hnone : normalizeRecord rDrop = Option.none := by
      rcases hDrop with h | h <;> simp [normalizeRecord, h]
    simp [merge_and_clean_events, hnone, deduplicate_events, dedupGo, sort_events]
  · have hsome : normalizeRecord r = some (normalizedOf r) := by
      simp [normalizeRecord, h1, h2]
    refine ⟨normalizedOf r, ?_, rfl, ?_, ?_, ?_, ?_⟩
    · simp [merge_and_clean_events, hsome, deduplicate_events, dedupGo, sort_events,
        insertByKey]
    · show normalize_date (clean_text (pyOr r.date (.str ""))) = "Unknown"
      simp only [pyOr, hdate, if_neg Bool.false_ne_true]
      decide
    · show clean_text (pyOr r.event_type (pyOr r.type (.str "Other"))) = "Other"
      simp only [pyOr, het, hty, if_neg Bool.false_ne_true]
      decide
    · show clean_text (pyOr r.counterparty (pyOr r.other_party
        (pyOr r.counter_party (.str "")))) = ""
      simp only [pyOr, hcp, hop, hcp2, if_neg Bool.false_ne_true]
      decide
    · show clean_text (pyOr r.amount (pyOr r.investment (pyOr r.value (.str "Undisclosed"))))
        = "Undisclosed"
      simp only [pyOr, ham, hin, hv, if_neg Bool.false_ne_true]
      decide

theorem claim_C1_witness :
    merge_and_clean_events (.records [rawTitleUnknown]) = [] ∧
    ∃ e : CanonicalEvent, merge_and_clean_events (.records [rawTitleX]) = [e] ∧
      e.title = coreTitle rawTitleX ∧ e.date = "Unknown" ∧ e.event_type = "Other" ∧
      e.counterparty = "" ∧ e.amount = "Undisclosed" :=
  claim_C1_amended rawTitleX rawTitleUnknown (Or.inr (by decide)) (by decide) (by decide)
    rfl rfl rfl rfl rfl rfl rfl rfl rfl

/-- Helper for C4: the dedup loop output is a sublist of its input. -/
theorem dedupGo_sublist (seen : List (String × String × String)) :
    ∀ (l : List CanonicalEvent), List.Sublist (dedupGo seen l) l := by
  intro l
  induction l generalizing seen with
  | nil => exact List.Sublist.refl _
  | cons e rest ih =>
    by_cases hm : dedupKey e ∈ seen
    · simp only [dedupGo, if_pos hm]
      exact List.Sublist.cons _ (ih seen)
    · simp only [dedupGo, if_neg hm]
      exact List.Sublist.cons₂ _ (ih _)

/-- Helper for C4: restricted to any single dedup key, the loop keeps
nothing if the key was already seen, and exactly the first occurrence
otherwise. -/
theorem dedupGo_filter (k : String × String × String) :
    ∀ (l : List CanonicalEvent) (seen : List (String × String × String)),
      (dedupGo seen l).filter (fun e => decide (dedupKey e = k)) =
        if k ∈ seen then []
        else (l.filter (fun e => decide (dedupKey e = k))).take 1 := by
  intro l
  induction l with
  | nil =>
    intro seen
    by_cases hk : k ∈ seen <;> simp [dedupGo, hk]
  | cons e rest ih =>
    intro seen
    by_cases hm : dedupKey e ∈ seen
    · simp only [dedupGo, if_pos hm]
      rw [ih seen]
      by_cases hk : k ∈ seen
      · simp [hk]
      · have hne : ¬(dedupKey e = k) := fun h => hk (h ▸ hm)
        simp [hk, List.filter_cons, hne]
    · simp only [dedupGo, if_neg hm]
      rw [List.filter_cons, ih (dedupKey e :: seen)]
      by_cases hek : dedupKey e = k
      · have hk : ¬(k ∈ seen) := fun h => hm (by rw [hek]; exact h)
        simp [hek, hk, List.filter_cons]
      · by_cases hk : k ∈ seen
        · simp [hek, hk]
        · have hks : ¬(k ∈ dedupKey e :: seen) := by
            intro h
            rcases List.mem_cons.mp h with h1 | h1
            · exact hek h1.symm
            · exact hk h1
          simp [hek, hks, hk, List.filter_cons]

/-- C4: deduplication keeps exactly the first occurrence of each dedup key
(cleaned lowercased title-or-description, date, cleaned lowercased source)
and drops every later occurrence; the output is a sublist of the input, so
survivors keep their relative input order. -/
theorem claim_C4_dedup (events : List CanonicalEvent) :
    List.Sublist (deduplicate_events events) events ∧
    ∀ k : String × String × String,
      (deduplicate_events events).filter (fun e => decide (dedupKey e = k)) =
        (events.filter (fun e => decide (dedupKey e = k))).take 1 := by
  refine ⟨dedupGo_sublist [] events, fun k => ?_⟩
  rw [deduplicate_events, dedupGo_filter k events []]
  simp

/-- Helper for C3: the tuple-key comparison is total. -/
theorem keyLeB_total (a b : CanonicalEvent) : keyLeB a b = true ∨ keyLeB b a = true := by
  simp only [keyLeB, Bool.or_eq_true, Bool.and_eq_true, decide_eq_true_eq]
  omega

/-- Helper for C3: the tuple-key comparison is transitive. -/
theorem keyLeB_trans {a b c : CanonicalEvent} (h1 : keyLeB a b = true)
    (h2 : keyLeB b c = true) : keyLeB a c = true := by
  simp only [keyLeB, Bool.or_eq_true, Bool.and_eq_true, decide_eq_true_eq] at h1 h2 ⊢
  omega

/-- Helper for C3: equal sort keys compare `≤` in both directions. -/
theorem keyLeB_of_eq {a b : CanonicalEvent} (h : sortPairKey a = sortPairKey b) :
    keyLeB a b = true := by
  simp only [sortPairKey, Prod.mk.injEq] at h
  simp only [keyLeB, Bool.or_eq_true, Bool.and_eq_true, decide_eq_true_eq]
  omega

/-- Helper for C3: membership in a stable insertion. -/
theorem mem_insertByKey {x z : CanonicalEvent} (l : List CanonicalEvent) :
    z ∈ insertByKey x l ↔ z = x ∨ z ∈ l := by
  induction l with
  | nil => simp [insertByKey]
  | cons y ys ih =>
    by_cases h : keyLeB y x = true
    · simp [insertByKey, h]
    · simp [insertByKey, h, ih, or_left_comm]

/-- Helper for C3: stable insertion preserves descending sortedness. -/
theorem pairwise_insertByKey {x : CanonicalEvent} {l : List CanonicalEvent}
    (h : l.Pairwise (fun a b => keyLeB b a = true)) :
    (insertByKey x l).Pairwise (fun a b => keyLeB b a = true) := by
  induction l with
  | nil => simp [insertByKey]
  | cons y ys ih =>
    rcases List.pairwise_cons.mp h with ⟨hy, hys⟩
    by_cases hxy : keyLeB y x = true
    · simp only [insertByKey, hxy, if_pos rfl]
      refine List.pairwise_cons.mpr ⟨?_, h⟩
      intro z hz
      rcases List.mem_cons.mp hz with rfl | hz2
      · exact hxy
      · exact keyLeB_trans (hy z hz2) hxy
    · rw [show insertByKey x (y :: ys) = y :: insertByKey x ys from by simp [insertByKey, hxy]]
      refine List.pairwise_cons.mpr ⟨?_, ih hys⟩
      intro z hz
      rcases (mem_insertByKey ys).mp hz with rfl | hz2
      · rcases keyLeB_total y z with h1 | h1
        · exact absurd h1 hxy
        · exact h1
      · exact hy z hz2

/-- Helper for C3: the sorted output is pairwise descending on the key. -/
theorem sort_events_pairwise (l : List CanonicalEvent) :
    (sort_events l).Pairwise (fun a b => keyLeB b a = true) := by
  induction l with
  | nil => simp [sort_events]
  | cons x xs ih => exact pairwise_insertByKey ih

/-- Helper for C3: restricted to any single sort key, insertion prepends
the new element exactly when its key matches. -/
theorem filter_insertByKey (x : CanonicalEvent) (k : Nat × Nat) :
    ∀ l : List CanonicalEvent,
      (insertByKey x l).filter (fun e => decide (sortPairKey e = k)) =
        if sortPairKey x = k then x :: l.filter (fun e => decide (sortPairKey e = k))
        else l.filter (fun e => decide (sortPairKey e = k)) := by
  intro l
  induction l with
  | nil => by_cases h : sortPairKey x = k <;> simp [insertByKey, h]
  | cons y ys ih =>
    by_cases hins : keyLeB y x = true
    · simp only [insertByKey, hins, if_pos rfl]
      by_cases hk : sortPairKey x = k <;> simp [List.filter_cons, hk]
    · rw [show insertByKey x (y :: ys) = y :: insertByKey x ys from by simp [insertByKey, hins]]
      rw [List.filter_cons, ih]
      by_cases hyk : sortPairKey y = k
      · have hxk : ¬(sortPairKey x = k) := by
          intro hxe
          exact hins (keyLeB_of_eq (hyk.trans hxe.symm))
        simp [hyk, hxk, List.filter_cons]
      · by_cases hxk : sortPairKey x = k <;> simp [hyk, hxk, List.filter_cons]

/-- Helper for C3 (stability): filtering the sorted output to one sort key
gives exactly the same-key elements of the input, in input order. -/
theorem filter_sort_events (k : Nat × Nat) :
    ∀ l : List CanonicalEvent,
      (sort_events l).filter (fun e => decide (sortPairKey e = k)) =
        l.filter (fun e => decide (sortPairKey e = k)) := by
  intro l
  induction l with
  | nil => rfl
  | cons x xs ih =>
    show (insertByKey x (sort_events xs)).filter _ = _
    rw [filter_insertByKey, ih]
    by_cases hk : sortPairKey x = k <;> simp [List.filter_cons, hk]

/-- Helper for C3/C5: a parsed ISO date is calendar-valid. -/
theorem fromIsoDate_valid : ∀ {l : List Char} {y m d : Nat},
    fromIsoDate l = some (y, m, d) → validDate y m d = true := by
  intro l y m d h
  unfold fromIsoDate at h
  have hmk : ∀ {Y M D : Nat}, mkDate Y M D = some (y, m, d) → validDate y m d = true := by
    intro Y M D hm
    unfold mkDate at hm
    split_ifs at hm with hv
    simp only [Option.some.injEq, Prod.mk.injEq] at hm
    obtain ⟨h1, h2, h3⟩ := hm
    rw [← h1, ← h2, ← h3]
    exact hv
  split at h
  · split_ifs at h with h1
    exact hmk h
  · split_ifs at h with h1
    exact hmk h
  · exact absurd h (by simp)

/-- Helper for C3: every sort-date key is at least the `datetime.min`
encoding 10101, so `Unknown` dates sort last (with the minimum key). -/
theorem sortDateKey_min (e : CanonicalEvent) : 10101 ≤ sortDateKey e := by
  unfold sortDateKey
  split_ifs with h
  · exact Nat.le_refl _
  · split
    next y m d heq =>
      have hv := fromIsoDate_valid heq
      simp only [validDate, Bool.and_eq_true, decide_eq_true_eq] at hv
      omega
    next heq => exact Nat.le_refl _

/-- C3: the output of `sort_events` is pairwise ordered by the descending
tuple key (completeness score, then encoded date, `Unknown` mapping to the
minimal `datetime.min` key) — hence an event with strictly greater
completeness always precedes one with smaller completeness, and equal
scores order by date descending; restricted to any fixed (score, date)
key the output equals the input (stability: ties keep input order); and
an `Unknown`-dated event's date key is minimal, so it sorts last among
equal scores. -/
theorem claim_C3_sort (events : List CanonicalEvent) :
    (sort_events events).Pairwise (fun a b => keyLeB b a = true) ∧
    (∀ k : Nat × Nat, (sort_events events).filter (fun e => decide (sortPairKey e = k)) =
      events.filter (fun e => decide (sortPairKey e = k))) ∧
    (∀ a b : CanonicalEvent, a.date = "Unknown" → sortDateKey a ≤ sortDateKey b) := by
  refine ⟨sort_events_pairwise events, fun k => filter_sort_events k events, ?_⟩
  intro a b ha
  have h1 : sortDateKey a = 10101 := by simp [sortDateKey, ha]
  rw [h1]
  exact sortDateKey_min b

theorem claim_C3_witness : sortDateKey eventUnknownDate ≤ sortDateKey eventDated :=
  (claim_C3_sort []).2.2 eventUnknownDate eventDated rfl

/-- Helper for C5: `%Y` success passes control to its continuation. -/
theorem pD4_bind {α : Type} {k : Nat → List Char → Option α} :
    ∀ {l : List Char} {r : α}, pD4 k l = some r → ∃ v rest, k v rest = some r := by
  intro l r h
  unfold pD4 at h
  split at h
  · split_ifs at h
    exact ⟨_, _, h⟩
  · exact absurd h (by simp)

/-- Helper for C5: a one-or-two digit field success passes control on. -/
theorem pNum2or1_bind {α : Type} {ok2 ok1 : Nat → Bool} {k : Nat → List Char → Option α} :
    ∀ {l : List Char} {r : α}, pNum2or1 ok2 ok1 k l = some r → ∃ v rest, k v rest = some r := by
  intro l r h
  unfold pNum2or1 at h
  have h2 : twoDigitTry ok2 k l = some r ∨ oneDigitTry ok1 k l = some r := by
    rcases ht : twoDigitTry ok2 k l with _ | v
    · rw [ht] at h
      simp only [Option.orElse] at h
      exact Or.inr h
    · rw [ht] at h
      simp only [Option.orElse] at h
      exact Or.inl h
  rcases h2 with h2 | h2
  · unfold twoDigitTry at h2
    split at h2
    · split_ifs at h2
      exact ⟨_, _, h2⟩
    · exact absurd h2 (by simp)
  · unfold oneDigitTry at h2
    split at h2
    · split_ifs at h2
      exact ⟨_, _, h2⟩
    · exact absurd h2 (by simp)

/-- Helper for C5: a literal-character success passes control on. -/
theorem pLit_bind {α : Type} {c : Char} {k : List Char → Option α} :
    ∀ {l : List Char} {r : α}, pLit c k l = some r → ∃ rest, k rest = some r := by
  intro l r h
  unfold pLit at h
  split at h
  · split_ifs at h
    exact ⟨_, h⟩
  · exact absurd h (by simp)

/-- Helper for C5: a whitespace-run success passes control on. -/
theorem pWs_bind {α : Type} {k : List Char → Option α} :
    ∀ {l : List Char} {r : α}, pWs k l = some r → ∃ rest, k rest = some r := by
  intro l r h
  unfold pWs at h
  split at h
  · split_ifs at h
    exact ⟨_, h⟩
  · exact absurd h (by simp)

/-- Helper for C5: a month-name success passes control on. -/
theorem pMonthName_bind {α : Type} {k : Nat → List Char → Option α} :
    ∀ (names : List (List Char × Nat)) {l : List Char} {r : α},
      pMonthName names k l = some r → ∃ v rest, k v rest = some r := by
  intro names
  induction names with
  | nil => intro l r h; simp [pMonthName] at h
  | cons nm tail ih =>
    intro l r h
    unfold pMonthName at h
    rcases hs : stripNameCI nm.1 l with _ | rem
    · rw [hs] at h
      exact ih h
    · rw [hs] at h
      exact ⟨_, _, h⟩

/-- Helper for C5: a successful final check certifies the date. -/
theorem checkEnd_inv {y m d : Nat} :
    ∀ {l : List Char} {r : Nat × Nat × Nat},
      checkEnd y m d l = some r → r = (y, m, d) ∧ validDate y m d = true := by
  intro l r h
  unfold checkEnd at h
  split at h
  · split_ifs at h with hv
    simp only [Option.some.injEq] at h
    exact ⟨h.symm, hv⟩
  · exact absurd h (by simp)

/-- Helper for C5: the shared `%H:%M:%S` tail only succeeds through the
final check. -/
theorem pTimeTail_bind {y m d : Nat} {l : List Char} {r : Nat × Nat × Nat}
    (h : pTimeTail y m d l = some r) : r = (y, m, d) ∧ validDate y m d = true := by
  unfold pTimeTail at h
  obtain ⟨_, _, h⟩ := pNum2or1_bind h
  obtain ⟨_, h⟩ := pLit_bind h
  obtain ⟨_, _, h⟩ := pNum2or1_bind h
  obtain ⟨_, h⟩ := pLit_bind h
  obtain ⟨_, _, h⟩ := pNum2or1_bind h
  exact checkEnd_inv h

theorem fmtYmd_valid {l : List Char} {y m d : Nat} (h : fmtYmd l = some (y, m, d)) :
    validDate y m d = true := by
  unfold fmtYmd at h
  obtain ⟨Y, _, h⟩ := pD4_bind h
  obtain ⟨_, h⟩ := pLit_bind h
  obtain ⟨M, _, h⟩ := pNum2or1_bind h
  obtain ⟨_, h⟩ := pLit_bind h
  obtain ⟨D, _, h⟩ := pNum2or1_bind h
  obtain ⟨heq, hv⟩ := checkEnd_inv h
  simp only [Prod.mk.injEq] at heq
  obtain ⟨h1, h2, h3⟩ := heq
  rw [h1, h2, h3]
  exact hv

theorem fmtDmyDash_valid {l : List Char} {y m d : Nat} (h : fmtDmyDash l = some (y, m, d)) :
    validDate y m d = true := by
  unfold fmtDmyDash at h
  obtain ⟨D, _, h⟩ := pNum2or1_bind h
  obtain ⟨_, h⟩ := pLit_bind h
  obtain ⟨M, _, h⟩ := pNum2or1_bind h
  obtain ⟨_, h⟩ := pLit_bind h
  obtain ⟨Y, _, h⟩ := pD4_bind h
  obtain ⟨heq, hv⟩ := checkEnd_inv h
  simp only [Prod.mk.injEq] at heq
  obtain ⟨h1, h2, h3⟩ := heq
  rw [h1, h2, h3]
  exact hv

theorem fmtDmySlash_valid {l : List Char} {y m d : Nat} (h : fmtDmySlash l = some (y, m, d)) :
    validDate y m d = true := by
  unfold fmtDmySlash at h
  obtain ⟨D, _, h⟩ := pNum2or1_bind h
  obtain ⟨_, h⟩ := pLit_bind h
  obtain ⟨M, _, h⟩ := pNum2or1_bind h
  obtain ⟨_, h⟩ := pLit_bind h
  obtain ⟨Y, _, h⟩ := pD4_bind h
  obtain ⟨heq, hv⟩ := checkEnd_inv h
  simp only [Prod.mk.injEq] at heq
  obtain ⟨h1, h2, h3⟩ := heq
  rw [h1, h2, h3]
  exact hv

theorem fmtBdY_valid {l : List Char} {y m d : Nat} (h : fmtBdY l = some (y, m, d)) :
    validDate y m d = true := by
  unfold fmtBdY at h
  obtain ⟨M, _, h⟩ := pMonthName_bind _ h
  obtain ⟨_, h⟩ := pWs_bind h
  obtain ⟨D, _, h⟩ := pNum2or1_bind h
  obtain ⟨_, h⟩ := pWs_bind h
  obtain ⟨Y, _, h⟩ := pD4_bind h
  obtain ⟨heq, hv⟩ := checkEnd_inv h
  simp only [Prod.mk.injEq] at heq
  obtain ⟨h1, h2, h3⟩ := heq
  rw [h1, h2, h3]
  exact hv

theorem fmtBFdY_valid {l : List Char} {y m d : Nat} (h : fmtBFdY l = some (y, m, d)) :
    validDate y m d = true := by
  unfold fmtBFdY at h
  obtain ⟨M, _, h⟩ := pMonthName_bind _ h
  obtain ⟨_, h⟩ := pWs_bind h
  obtain ⟨D, _, h⟩ := pNum2or1_bind h
  obtain ⟨_, h⟩ := pWs_bind h
  obtain ⟨Y, _, h⟩ := pD4_bind h
  obtain ⟨heq, hv⟩ := checkEnd_inv h
  simp only [Prod.mk.injEq] at heq
  obtain ⟨h1, h2, h3⟩ := heq
  rw [h1, h2, h3]
  exact hv

theorem fmtDbY_valid {l : List Char} {y m d : Nat} (h : fmtDbY l = some (y, m, d)) :
    validDate y m d = true := by
  unfold fmtDbY at h
  obtain ⟨D, _, h⟩ := pNum2or1_bind h
  obtain ⟨_, h⟩ := pWs_bind h
  obtain ⟨M, _, h⟩ := pMonthName_bind _ h
  obtain ⟨_, h⟩ := pWs_bind h
  obtain ⟨Y, _, h⟩ := pD4_bind h
  obtain ⟨heq, hv⟩ := checkEnd_inv h
  simp only [Prod.mk.injEq] at heq
  obtain ⟨h1, h2, h3⟩ := heq
  rw [h1, h2, h3]
  exact hv

theorem fmtDBFY_valid {l : List Char} {y m d : Nat} (h : fmtDBFY l = some (y, m, d)) :
    validDate y m d = true := by
  unfold fmtDBFY at h
  obtain ⟨D, _, h⟩ := pNum2or1_bind h
  obtain ⟨_, h⟩ := pWs_bind h
  obtain ⟨M, _, h⟩ := pMonthName_bind _ h
  obtain ⟨_, h⟩ := pWs_bind h
  obtain ⟨Y, _, h⟩ := pD4_bind h
  obtain ⟨heq, hv⟩ := checkEnd_inv h
  simp only [Prod.mk.injEq] at heq
  obtain ⟨h1, h2, h3⟩ := heq
  rw [h1, h2, h3]
  exact hv

theorem fmtYmdT_valid {l : List Char} {y m d : Nat} (h : fmtYmdT l = some (y, m, d)) :
    validDate y m d = true := by
  unfold fmtYmdT at h
  obtain ⟨Y, _, h⟩ := pD4_bind h
  obtain ⟨_, h⟩ := pLit_bind h
  obtain ⟨M, _, h⟩ := pNum2or1_bind h
  obtain ⟨_, h⟩ := pLit_bind h
  obtain ⟨D, _, h⟩ := pNum2or1_bind h
  obtain ⟨_, h⟩ := pLit_bind h
  obtain ⟨heq, hv⟩ := pTimeTail_bind h
  simp only [Prod.mk.injEq] at heq
  obtain ⟨h1, h2, h3⟩ := heq
  rw [h1, h2, h3]
  exact hv

theorem fmtYmdSp_valid {l : List Char} {y m d : Nat} (h : fmtYmdSp l = some (y, m, d)) :
    validDate y m d = true := by
  unfold fmtYmdSp at h
  obtain ⟨Y, _, h⟩ := pD4_bind h
  obtain ⟨_, h⟩ := pLit_bind h
  obtain ⟨M, _, h⟩ := pNum2or1_bind h
  obtain ⟨_, h⟩ := pLit_bind h
  obtain ⟨D, _, h⟩ := pNum2or1_bind h
  obtain ⟨_, h⟩ := pWs_bind h
  obtain ⟨heq, hv⟩ := pTimeTail_bind h
  simp only [Prod.mk.injEq] at heq
  obtain ⟨h1, h2, h3⟩ := heq
  rw [h1, h2, h3]
  exact hv

/-- Helper for C5: each format in the source's list only ever returns
calendar-valid dates. -/
theorem strptimeFormats_valid :
    ∀ f ∈ strptimeFormats, ∀ (l : List Char) (y m d : Nat),
      f l = some (y, m, d) → validDate y m d = true := by
  intro f hf
  simp only [strptimeFormats, List.mem_cons, List.not_mem_nil, or_false] at hf
  rcases hf with rfl | rfl | rfl | rfl | rfl | rfl | rfl | rfl | rfl
  · exact fun l y m d h => fmtYmd_valid h
  · exact fun l y m d h => fmtDmyDash_valid h
  · exact fun l y m d h => fmtDmySlash_valid h
  · exact fun l y m d h => fmtBdY_valid h
  · exact fun l y m d h => fmtBFdY_valid h
  · exact fun l y m d h => fmtDbY_valid h
  · exact fun l y m d h => fmtDBFY_valid h
  · exact fun l y m d h => fmtYmdT_valid h
  · exact fun l y m d h => fmtYmdSp_valid h

/-- Helper for C5: a successful `tryFormats` run comes from some format in
the list. -/
theorem tryFormats_mem :
    ∀ (fs : List (List Char → Option (Nat × Nat × Nat))) (l : List Char)
      (r : Nat × Nat × Nat), tryFormats fs l = some r → ∃ f ∈ fs, f l = some r := by
  intro fs
  induction fs with
  | nil => intro l r h; simp [tryFormats] at h
  | cons f fs2 ih =>
    intro l r h
    unfold tryFormats at h
    rcases hf : f l with _ | v
    · rw [hf] at h
      obtain ⟨g, hg, hgl⟩ := ih l r h
      exact ⟨g, List.mem_cons_of_mem _ hg, hgl⟩
    · rw [hf] at h
      exact ⟨f, List.mem_cons_self _ _, hf.trans h⟩

/-- C5 counterexample: `normalize_date "2015"` is `"Unknown"` — the
fallback is `datetime.fromisoformat` on the part before `"T"`, which
rejects a bare four-digit year, not a leading-year extraction — and
`normalize_date "12/25/2024"` (US month/day/year) is `"Unknown"` while
the day-first `"25/12/2024"` parses: the format list contains no US
month/day/year entry. -/
theorem claim_C5_counterexample :
    normalize_date "2015" = "Unknown" ∧
    normalize_date "12/25/2024" = "Unknown" ∧
    normalize_date "25/12/2024" = "2024-12-25" := by
  refine ⟨by decide, by decide, by decide⟩

/-- C5 amended: `normalize_date` strips the input, removes `·` and `,`,
then attempts in order full ISO (`%Y-%m-%d`), day-month-year with dashes
and with slashes, month-name forms (`%b %d %Y`, `%B %d %Y`, `%d %b %Y`,
`%d %B %Y`), and ISO with a time component, rendering the first match as
ISO; if none match it attempts a strict ISO-date parse of the portion
before any `"T"` (dashed or compact eight-digit form, no bare year); if
that also fails it returns `"Unknown"`.  Hence every output is either
`"Unknown"` or a rendering of a calendar-valid date, and in particular
`"2015"` yields `"Unknown"` while `"25/12/2024"`, `"March 5, 2021"` and
`"20240301"` parse. -/
theorem claim_C5_amended :
    normalize_date "2015" = "Unknown" ∧
    normalize_date "2024-03-01" = "2024-03-01" ∧
    normalize_date "25/12/2024" = "2024-12-25" ∧
    normalize_date "March 5, 2021" = "2021-03-05" ∧
    normalize_date "2024-03-01T09:10:11" = "2024-03-01" ∧
    normalize_date "20240301" = "2024-03-01" ∧
    (∀ s : String, normalize_date s = "Unknown" ∨
      ∃ y m d : Nat, validDate y m d = true ∧
        (normalize_date s = strftimeYmd y m d ∨ normalize_date s = isoStr y m d)) := by
  refine ⟨by decide, by decide, by decide, by decide, by decide, by decide, ?_⟩
  intro s
  unfold normalize_date
  split_ifs with h0
  · exact Or.inl rfl
  · split
    next y m d heq =>
      obtain ⟨f, hf, hfl⟩ := tryFormats_mem _ _ _ heq
      exact Or.inr ⟨y, m, d, strptimeFormats_valid f hf _ y m d hfl, Or.inl rfl⟩
    next heq =>
      split
      next y m d heq2 =>
        exact Or.inr ⟨y, m, d, fromIsoDate_valid heq2, Or.inr rfl⟩
      next heq2 => exact Or.inl rfl

end EventUtils
